import Mathlib

/-!
Verification of the software renderer repository (solar-system renderer).

Definitions are a shallow embedding of the source:
- src/src/camera.rs : the Camera struct and its operations (f32 modelled as ℝ,
  exact real arithmetic; Rust's float `%` modelled as truncated remainder,
  `clamp` as the Rust if-chain).
- src/src/main.rs : the triangle-grouping step of `render`.
- The framebuffer and the triangle rasterizer are modules of this repository
  whose source is not under src/ (only main.rs calls them); they are modelled
  from the spec as stated on each definition, with f32 depths modelled as ℚ
  and u32 colors as ℕ so the model is executable.
-/

/-! ## Vectors (nalgebra_glm::Vec3 with f32 components, modelled over ℝ) -/

/-- Three-component real vector, the model of nalgebra_glm::Vec3. -/
@[ext]
structure Vec3 where
  x : ℝ
  y : ℝ
  z : ℝ

instance : Add Vec3 := ⟨fun a b => ⟨a.x + b.x, a.y + b.y, a.z + b.z⟩⟩

instance : Sub Vec3 := ⟨fun a b => ⟨a.x - b.x, a.y - b.y, a.z - b.z⟩⟩

instance : Neg Vec3 := ⟨fun a => ⟨-a.x, -a.y, -a.z⟩⟩

instance : SMul ℝ Vec3 := ⟨fun r v => ⟨r * v.x, r * v.y, r * v.z⟩⟩

/-- Euclidean norm, the model of Vec3::magnitude. -/
noncomputable def Vec3.magnitude (v : Vec3) : ℝ :=
  Real.sqrt (v.x ^ 2 + v.y ^ 2 + v.z ^ 2)

/-- Unit vector in the direction of v, the model of Vec3::normalize
(componentwise division by the magnitude). -/
noncomputable def Vec3.normalize (v : Vec3) : Vec3 :=
  (1 / v.magnitude) • v

/-- Cross product, the model of Vec3::cross. -/
def Vec3.cross (a b : Vec3) : Vec3 :=
  ⟨a.y * b.z - a.z * b.y, a.z * b.x - a.x * b.z, a.x * b.y - a.y * b.x⟩

/-! ## Rust float primitives used by camera.rs -/

/-- Truncation toward zero of a real number, as Rust's f32-to-integer
truncation used by the float remainder. -/
noncomputable def rustTrunc (r : ℝ) : ℤ :=
  if 0 ≤ r then ⌊r⌋ else ⌈r⌉

/-- Rust's f32 `%` operator: remainder after division truncated toward zero
(result carries the sign of the dividend). -/
noncomputable def rustRem (a b : ℝ) : ℝ :=
  a - b * (rustTrunc (a / b) : ℝ)

/-- Rust's f32::clamp(lo, hi): if below lo return lo, if above hi return hi,
else the value itself (the source always calls it with lo ≤ hi). -/
noncomputable def rclamp (v lo hi : ℝ) : ℝ :=
  if v < lo then lo else if hi < v then hi else v

/-! ## Camera (src/src/camera.rs) -/

/-- Camera state, translated field-for-field from the Camera struct in
src/src/camera.rs. -/
structure Camera where
  eye : Vec3
  center : Vec3
  up : Vec3
  yaw : ℝ
  pitch : ℝ
  roll : ℝ
  movement_speed : ℝ
  rotation_speed : ℝ
  has_changed : Bool

/-- Camera::new from src/src/camera.rs: yaw 0, pitch 0, roll 0,
movement_speed 0.5, rotation_speed 0.03, has_changed true. -/
noncomputable def Camera.new (eye center up : Vec3) : Camera :=
  ⟨eye, center, up, 0, 0, 0, 0.5, 0.03, true⟩

/-- Camera::get_view_direction: normalize(center - eye). -/
noncomputable def Camera.get_view_direction (c : Camera) : Vec3 :=
  Vec3.normalize (c.center - c.eye)

/-- Camera::get_right: normalize(view_direction × up). -/
noncomputable def Camera.get_right (c : Camera) : Vec3 :=
  Vec3.normalize (Vec3.cross c.get_view_direction c.up)

/-- Camera::move_forward: translate eye and center along the view direction
scaled by amount * movement_speed. -/
noncomputable def Camera.move_forward (c : Camera) (amount : ℝ) : Camera :=
  let direction := c.get_view_direction
  { c with
    eye := c.eye + (amount * c.movement_speed) • direction
    center := c.center + (amount * c.movement_speed) • direction
    has_changed := true }

/-- Camera::move_right: translate eye and center along the right vector
scaled by amount * movement_speed. -/
noncomputable def Camera.move_right (c : Camera) (amount : ℝ) : Camera :=
  let right := c.get_right
  { c with
    eye := c.eye + (amount * c.movement_speed) • right
    center := c.center + (amount * c.movement_speed) • right
    has_changed := true }

/-- Camera::move_up: translate eye and center along up scaled by
amount * movement_speed. -/
noncomputable def Camera.move_up (c : Camera) (amount : ℝ) : Camera :=
  { c with
    eye := c.eye + (amount * c.movement_speed) • c.up
    center := c.center + (amount * c.movement_speed) • c.up
    has_changed := true }

/-- Eye offset on the orbit sphere: the Vec3::new expression built inside
Camera::orbit from the radius, yaw and pitch. -/
noncomputable def sphereVec (r yw p : ℝ) : Vec3 :=
  ⟨r * Real.cos yw * Real.cos p, -(r * Real.sin p), r * Real.sin yw * Real.cos p⟩

/-- Camera::orbit from src/src/camera.rs: wrap yaw with f32 `%` into
(-2π, 2π), clamp pitch into [-π/2 + 0.1, π/2 - 0.1], then place the eye on
the sphere of the current eye-to-center radius around the center. -/
noncomputable def Camera.orbit (c : Camera) (delta_yaw delta_pitch : ℝ) : Camera :=
  let radius := Vec3.magnitude (c.eye - c.center)
  let yaw2 := rustRem (c.yaw + delta_yaw * c.rotation_speed) (2 * Real.pi)
  let pitch2 := rclamp (c.pitch + delta_pitch * c.rotation_speed)
      (-(Real.pi / 2) + 0.1) (Real.pi / 2 - 0.1)
  { c with
    yaw := yaw2
    pitch := pitch2
    eye := c.center + sphereVec radius yaw2 pitch2
    has_changed := true }

/-- Camera::zoom from src/src/camera.rs: move the eye along the view
direction by delta * movement_speed, but only commit the move when the new
eye stays farther than min_distance = 1.0 from the center. -/
noncomputable def Camera.zoom (c : Camera) (delta : ℝ) : Camera :=
  let direction := Vec3.normalize (c.center - c.eye)
  let new_eye := c.eye + (delta * c.movement_speed) • direction
  let min_distance : ℝ := 1
  if min_distance < Vec3.magnitude (new_eye - c.center) then
    { c with eye := new_eye, has_changed := true }
  else c

/-- Fold of Camera::zoom over a finite sequence of deltas. -/
noncomputable def Camera.zoomSeq (c : Camera) (ds : List ℝ) : Camera :=
  ds.foldl Camera.zoom c

/-- Fold of Camera::orbit over a finite sequence of (delta_yaw, delta_pitch)
pairs. -/
noncomputable def Camera.orbitSeq (c : Camera) (ds : List (ℝ × ℝ)) : Camera :=
  ds.foldl (fun a p => a.orbit p.1 p.2) c

/-! ## Framebuffer (module framebuffer of this repository; its file is not
under src/, only main.rs uses it) -/

/-- Modelled from the spec: the Framebuffer of §4.1 (the framebuffer module
is missing from src/). Color and depth buffers are total maps from
coordinates; u32 colors are ℕ, f32 depths are ℚ. -/
structure Framebuffer where
  width : ℕ
  height : ℕ
  buffer : ℕ → ℕ → ℕ
  zbuffer : ℕ → ℕ → ℚ
  background_color : ℕ
  current_color : ℕ

/-- Modelled from the spec: Framebuffer::point of §4.1 (file missing from
src/): if (x, y) is within [0, width) × [0, height) and depth is nearer
(strictly smaller) than the stored depth, write the current color and the
depth at that cell; otherwise a no-op. -/
def Framebuffer.point (fb : Framebuffer) (x y : ℕ) (depth : ℚ) : Framebuffer :=
  if x < fb.width ∧ y < fb.height ∧ depth < fb.zbuffer x y then
    { fb with
      buffer := fun i j => if i = x ∧ j = y then fb.current_color else fb.buffer i j
      zbuffer := fun i j => if i = x ∧ j = y then depth else fb.zbuffer i j }
  else fb

/-- Modelled from the spec: Framebuffer::set_current_color of §4.1, a pure
register set. -/
def Framebuffer.set_current_color (fb : Framebuffer) (c : ℕ) : Framebuffer :=
  { fb with current_color := c }

/-! ## Triangle rasterizer (module triangle of this repository; its file is
not under src/, only main.rs uses it) -/

/-- Screen-space vertex fed to the rasterizer: pixel-space x, y and the
retained depth (f32 modelled as ℚ). -/
structure ScreenV where
  x : ℚ
  y : ℚ
  depth : ℚ

/-- Candidate pixel write produced by rasterization: integer screen
coordinates and the interpolated depth. -/
structure Fragment where
  x : ℤ
  y : ℤ
  depth : ℚ

/-- Edge function of §4.3: signed-area contribution of the directed edge a→b
at the point (px, py); its sign tells the side of the edge. -/
def edgeF (a b : ScreenV) (px py : ℚ) : ℚ :=
  (b.x - a.x) * (py - a.y) - (b.y - a.y) * (px - a.x)

/-- Modelled from the spec: the triangle rasterizer of §4.3 (the triangle
module is missing from src/). Degenerate triangles (zero doubled signed
area) produce zero fragments; otherwise every integer pixel in the bounding
box whose three edge-function values share a sign (boundary pixels included)
yields one fragment with barycentric-interpolated depth. -/
def rasterize (v0 v1 v2 : ScreenV) : List Fragment :=
  let area := edgeF v0 v1 v2.x v2.y
  if area = 0 then []
  else
    let minX : ℤ := ⌊min v0.x (min v1.x v2.x)⌋
    let maxX : ℤ := ⌈max v0.x (max v1.x v2.x)⌉
    let minY : ℤ := ⌊min v0.y (min v1.y v2.y)⌋
    let maxY : ℤ := ⌈max v0.y (max v1.y v2.y)⌉
    let xs := (List.range (maxX - minX + 1).toNat).map (fun i => minX + (i : ℤ))
    let ys := (List.range (maxY - minY + 1).toNat).map (fun j => minY + (j : ℤ))
    (ys.flatMap fun (py : ℤ) => xs.filterMap fun (px : ℤ) =>
      let e0 := edgeF v1 v2 (px : ℚ) (py : ℚ)
      let e1 := edgeF v2 v0 (px : ℚ) (py : ℚ)
      let e2 := edgeF v0 v1 (px : ℚ) (py : ℚ)
      if (0 ≤ e0 ∧ 0 ≤ e1 ∧ 0 ≤ e2) ∨ (e0 ≤ 0 ∧ e1 ≤ 0 ∧ e2 ≤ 0) then
        some ⟨px, py, (e0 / area) * v0.depth + (e1 / area) * v1.depth +
          (e2 / area) * v2.depth⟩
      else none)

/-! ## Triangle grouping in render (src/src/main.rs, lines 123-132) -/

/-- Triangle grouping loop of render in src/src/main.rs: the loop walks
indices 0, 3, 6, ... and pushes the triple starting at i only when i + 2 is
still in range, so only complete consecutive triples are kept; structurally,
consume three list elements per step and stop when fewer than three remain. -/
def groupTris {α : Type} : List α → List (α × α × α)
  | a :: b :: c :: rest => (a, b, c) :: groupTris rest
  | _ => []

/-! ## Component lemmas for Vec3 arithmetic -/

@[simp]
theorem Vec3.add_x (a b : Vec3) : (a + b).x = a.x + b.x := rfl

@[simp]
theorem Vec3.add_y (a b : Vec3) : (a + b).y = a.y + b.y := rfl

@[simp]
theorem Vec3.add_z (a b : Vec3) : (a + b).z = a.z + b.z := rfl

@[simp]
theorem Vec3.sub_x (a b : Vec3) : (a - b).x = a.x - b.x := rfl

@[simp]
theorem Vec3.sub_y (a b : Vec3) : (a - b).y = a.y - b.y := rfl

@[simp]
theorem Vec3.sub_z (a b : Vec3) : (a - b).z = a.z - b.z := rfl

@[simp]
theorem Vec3.smul_x (r : ℝ) (v : Vec3) : (r • v).x = r * v.x := rfl

@[simp]
theorem Vec3.smul_y (r : ℝ) (v : Vec3) : (r • v).y = r * v.y := rfl

@[simp]
theorem Vec3.smul_z (r : ℝ) (v : Vec3) : (r • v).z = r * v.z := rfl

theorem Vec3.add_sub_cancel_left (a v : Vec3) : (a + v) - a = v := by
  ext <;> simp

/-! ## Framebuffer point: single-call characterization -/

theorem Framebuffer.point_write (fb : Framebuffer) (x y : ℕ) (d : ℚ)
    (hx : x < fb.width) (hy : y < fb.height) (hd : d < fb.zbuffer x y) :
    fb.point x y d = { fb with
      buffer := fun i j => if i = x ∧ j = y then fb.current_color else fb.buffer i j
      zbuffer := fun i j => if i = x ∧ j = y then d else fb.zbuffer i j } := by
  unfold Framebuffer.point
  rw [if_pos ⟨hx, hy, hd⟩]

theorem Framebuffer.point_noop (fb : Framebuffer) (x y : ℕ) (d : ℚ)
    (h : ¬(x < fb.width ∧ y < fb.height ∧ d < fb.zbuffer x y)) :
    fb.point x y d = fb := by
  unfold Framebuffer.point
  rw [if_neg h]

/-- C1: for every in-bounds pixel (x, y) and depths d1, d2, with the first
call effective (d1 nearer than the stored depth, as the claim presupposes by
asserting the stored depth becomes d1): after point(x, y, d1) then
point(x, y, d2), if d2 ≥ d1 the second call is a no-op and the cell keeps
depth d1 and the color written by the first call; if d2 < d1 the second call
overwrites the cell with the then-current draw color and depth d2. -/
theorem point_depth_test (fb : Framebuffer) (x y : ℕ) (d1 d2 : ℚ)
    (hx : x < fb.width) (hy : y < fb.height) (hd : d1 < fb.zbuffer x y) :
    (d1 ≤ d2 →
      (fb.point x y d1).point x y d2 = fb.point x y d1 ∧
      ((fb.point x y d1).point x y d2).zbuffer x y = d1 ∧
      ((fb.point x y d1).point x y d2).buffer x y = fb.current_color) ∧
    (d2 < d1 →
      ((fb.point x y d1).point x y d2).buffer x y =
        (fb.point x y d1).current_color ∧
      ((fb.point x y d1).point x y d2).zbuffer x y = d2) := by
  have h1 := fb.point_write x y d1 hx hy hd
  have hzb : (fb.point x y d1).zbuffer x y = d1 := by rw [h1]; simp
  have hbuf : (fb.point x y d1).buffer x y = fb.current_color := by rw [h1]; simp
  have hw : (fb.point x y d1).width = fb.width := by rw [h1]
  have hh : (fb.point x y d1).height = fb.height := by rw [h1]
  have hcc : (fb.point x y d1).current_color = fb.current_color := by rw [h1]
  constructor
  · intro hle
    have hno : (fb.point x y d1).point x y d2 = fb.point x y d1 := by
      apply Framebuffer.point_noop
      rintro ⟨-, -, hlt⟩
      rw [hzb] at hlt
      exact absurd hlt (not_lt.mpr hle)
    exact ⟨hno, by rw [hno, hzb], by rw [hno, hbuf]⟩
  · intro hlt
    have h2 := (fb.point x y d1).point_write x y d2 (hw ▸ hx) (hh ▸ hy)
      (by rw [hzb]; exact hlt)
    constructor
    · rw [h2]; simp
    · rw [h2]; simp

/-- Concrete framebuffer used only to instantiate the point theorems:
an 8 by 8 buffer, all colors 0, all depths 100, draw color 7. -/
def testFb : Framebuffer :=
  ⟨8, 8, fun _ _ => 0, fun _ _ => 100, 0, 7⟩

theorem point_depth_test_witness :
    (2 < testFb.width ∧ 3 < testFb.height ∧ (5 : ℚ) < testFb.zbuffer 2 3) ∧
    (((5 : ℚ) ≤ 9 →
      (testFb.point 2 3 5).point 2 3 9 = testFb.point 2 3 5 ∧
      ((testFb.point 2 3 5).point 2 3 9).zbuffer 2 3 = 5 ∧
      ((testFb.point 2 3 5).point 2 3 9).buffer 2 3 = testFb.current_color) ∧
    ((9 : ℚ) < 5 →
      ((testFb.point 2 3 5).point 2 3 9).buffer 2 3 =
        (testFb.point 2 3 5).current_color ∧
      ((testFb.point 2 3 5).point 2 3 9).zbuffer 2 3 = 9)) :=
  ⟨⟨by decide, by decide, by decide⟩,
    point_depth_test testFb 2 3 5 9 (by decide) (by decide) (by decide)⟩

/-- C2: point with coordinates outside the width or height bound leaves the
framebuffer (color buffer, depth buffer, and every other field) exactly
unchanged; the function is total, so no error or panic is possible, and any
coordinate produced by usize underflow is just a large natural number that
this covers. -/
theorem point_out_of_bounds (fb : Framebuffer) (x y : ℕ) (depth : ℚ)
    (h : fb.width ≤ x ∨ fb.height ≤ y) :
    fb.point x y depth = fb := by
  apply Framebuffer.point_noop
  rintro ⟨h1, h2, -⟩
  rcases h with h | h
  · exact absurd h1 (not_lt.mpr h)
  · exact absurd h2 (not_lt.mpr h)

theorem point_out_of_bounds_witness :
    (testFb.width ≤ 100 ∨ testFb.height ≤ 3) ∧
    testFb.point 100 3 5 = testFb :=
  ⟨Or.inl (by decide), point_out_of_bounds testFb 100 3 5 (Or.inl (by decide))⟩

/-- C7: a degenerate triangle, three screen-space vertices with zero doubled
signed area (collinear positions), rasterizes to the empty fragment list;
rasterize is a total function, so no error is raised. -/
theorem rasterize_degenerate_empty (v0 v1 v2 : ScreenV)
    (h : edgeF v0 v1 v2.x v2.y = 0) :
    rasterize v0 v1 v2 = [] := by
  unfold rasterize
  rw [if_pos h]

theorem rasterize_degenerate_empty_witness :
    edgeF ⟨0, 0, 1⟩ ⟨1, 1, 1⟩ (ScreenV.mk 2 2 1).x (ScreenV.mk 2 2 1).y = 0 ∧
    rasterize ⟨0, 0, 1⟩ ⟨1, 1, 1⟩ ⟨2, 2, 1⟩ = [] :=
  ⟨by norm_num [edgeF], rasterize_degenerate_empty ⟨0, 0, 1⟩ ⟨1, 1, 1⟩ ⟨2, 2, 1⟩
    (by norm_num [edgeF])⟩

/-! ## Triangle grouping (render, src/src/main.rs) -/

theorem groupTris_length_aux {α : Type} :
    ∀ (n : ℕ) (vs : List α), vs.length ≤ n →
      (groupTris vs).length = vs.length / 3 := by
  intro n
  induction n with
  | zero =>
    intro vs h
    have : vs = [] := List.length_eq_zero.mp (Nat.le_zero.mp h)
    subst this
    simp [groupTris]
  | succ n ih =>
    intro vs h
    match vs with
    | [] => simp [groupTris]
    | [a] => simp [groupTris]
    | [a, b] => simp [groupTris]
    | a :: b :: c :: rest =>
      have hr : rest.length ≤ n := by
        simp only [List.length_cons] at h
        omega
      simp only [groupTris, List.length_cons]
      rw [ih rest hr]
      omega

theorem groupTris_get_aux {α : Type} :
    ∀ (n : ℕ) (vs : List α), vs.length ≤ n →
      ∀ (k : ℕ) (a b c : α), vs.get? (3 * k) = some a →
        vs.get? (3 * k + 1) = some b → vs.get? (3 * k + 2) = some c →
        (groupTris vs).get? k = some (a, b, c) := by
  intro n
  induction n with
  | zero =>
    intro vs h k a b c h1 h2 h3
    have : vs = [] := List.length_eq_zero.mp (Nat.le_zero.mp h)
    subst this
    simp [List.get?_nil] at h1
  | succ n ih =>
    intro vs h k a b c h1 h2 h3
    match vs with
    | [] => simp [List.get?_nil] at h1
    | [a0] =>
      rw [show 3 * k + 1 = 3 * k + 1 from rfl, List.get?_cons_succ,
        List.get?_nil] at h2
      exact absurd h2 (by simp)
    | [a0, b0] =>
      rw [show 3 * k + 2 = 3 * k + 1 + 1 from rfl, List.get?_cons_succ,
        List.get?_cons_succ, List.get?_nil] at h3
      exact absurd h3 (by simp)
    | a0 :: b0 :: c0 :: rest =>
      cases k with
      | zero =>
        rw [show 3 * 0 = 0 from rfl, List.get?_cons_zero] at h1
        rw [show 3 * 0 + 1 = 0 + 1 from rfl, List.get?_cons_succ,
          List.get?_cons_zero] at h2
        rw [show 3 * 0 + 2 = 0 + 1 + 1 from rfl, List.get?_cons_succ,
          List.get?_cons_succ, List.get?_cons_zero] at h3
        obtain rfl := Option.some.inj h1
        obtain rfl := Option.some.inj h2
        obtain rfl := Option.some.inj h3
        simp [groupTris]
      | succ k =>
        rw [show 3 * (k + 1) = 3 * k + 1 + 1 + 1 by ring, List.get?_cons_succ,
          List.get?_cons_succ, List.get?_cons_succ] at h1
        rw [show 3 * (k + 1) + 1 = 3 * k + 1 + 1 + 1 + 1 by ring,
          List.get?_cons_succ, List.get?_cons_succ, List.get?_cons_succ] at h2
        rw [show 3 * (k + 1) + 2 = 3 * k + 2 + 1 + 1 + 1 by ring,
          List.get?_cons_succ, List.get?_cons_succ, List.get?_cons_succ] at h3
        have hr : rest.length ≤ n := by
          simp only [List.length_cons] at h
          omega
        simp only [groupTris, List.get?_cons_succ]
        exact ih rest hr k a b c h1 h2 h3

/-- C6: render groups the transformed vertices into consecutive triples in
order, forming exactly floor(n/3) triangles from n vertices; the k-th
triangle is the triple at indices 3k, 3k+1, 3k+2, so a trailing incomplete
group of one or two vertices is discarded. -/
theorem render_triangle_grouping {α : Type} (vs : List α) :
    (groupTris vs).length = vs.length / 3 ∧
    ∀ (k : ℕ) (a b c : α),
      vs.get? (3 * k) = some a → vs.get? (3 * k + 1) = some b →
      vs.get? (3 * k + 2) = some c →
      (groupTris vs).get? k = some (a, b, c) :=
  ⟨groupTris_length_aux vs.length vs le_rfl,
   fun k a b c h1 h2 h3 => groupTris_get_aux vs.length vs le_rfl k a b c h1 h2 h3⟩

theorem render_triangle_grouping_witness :
    (groupTris [0, 1, 2, 3, 4]).length = 1 ∧
    (groupTris [0, 1, 2, 3, 4]).get? 0 = some (0, 1, 2) :=
  ⟨(render_triangle_grouping [0, 1, 2, 3, 4]).1,
   (render_triangle_grouping [0, 1, 2, 3, 4]).2 0 0 1 2 rfl rfl rfl⟩

/-! ## Real and Vec3 computation helpers -/

theorem sqrtEval {a b : ℝ} (hb : 0 ≤ b) (h : b ^ 2 = a) : Real.sqrt a = b := by
  rw [← h, Real.sqrt_sq hb]

theorem Vec3.magnitude_nonneg (v : Vec3) : 0 ≤ v.magnitude :=
  Real.sqrt_nonneg _

theorem Vec3.magnitude_mk (a b c : ℝ) :
    (Vec3.mk a b c).magnitude = Real.sqrt (a ^ 2 + b ^ 2 + c ^ 2) := rfl

theorem Vec3.mk_sub_mk (a b c d e f : ℝ) :
    Vec3.mk a b c - Vec3.mk d e f = Vec3.mk (a - d) (b - e) (c - f) := rfl

theorem Vec3.mk_add_mk (a b c d e f : ℝ) :
    Vec3.mk a b c + Vec3.mk d e f = Vec3.mk (a + d) (b + e) (c + f) := rfl

theorem Vec3.smul_mk (r a b c : ℝ) :
    r • Vec3.mk a b c = Vec3.mk (r * a) (r * b) (r * c) := rfl

theorem sphereVec_magnitude (r yw p : ℝ) (hr : 0 ≤ r) :
    (sphereVec r yw p).magnitude = r := by
  have h1 := Real.sin_sq_add_cos_sq yw
  have h2 := Real.sin_sq_add_cos_sq p
  simp only [sphereVec, Vec3.magnitude_mk]
  apply sqrtEval hr
  linear_combination (-(r ^ 2) * Real.cos p ^ 2) * h1 + (-(r ^ 2)) * h2

theorem rclamp_mem {v lo hi : ℝ} (h : lo ≤ hi) :
    lo ≤ rclamp v lo hi ∧ rclamp v lo hi ≤ hi := by
  unfold rclamp
  split_ifs with h1 h2
  · exact ⟨le_refl lo, h⟩
  · exact ⟨h, le_refl hi⟩
  · exact ⟨not_lt.mp h1, not_lt.mp h2⟩

theorem rclamp_idem {v lo hi : ℝ} (h : lo ≤ hi) :
    rclamp (rclamp v lo hi) lo hi = rclamp v lo hi := by
  obtain ⟨ha, hb⟩ := @rclamp_mem v lo hi h
  set c := rclamp v lo hi with hc
  unfold rclamp
  rw [if_neg (not_lt.mpr ha), if_neg (not_lt.mpr hb)]

theorem rustRem_eq_add_int_mul (a b : ℝ) : ∃ k : ℤ, rustRem a b = a + k * b :=
  ⟨-(rustTrunc (a / b)), by unfold rustRem; push_cast; ring⟩

/-! ## Orbit projection lemmas -/

theorem Camera.orbit_center (c : Camera) (dy dp : ℝ) :
    (c.orbit dy dp).center = c.center := rfl

theorem Camera.orbit_speed (c : Camera) (dy dp : ℝ) :
    (c.orbit dy dp).rotation_speed = c.rotation_speed := rfl

theorem Camera.orbit_yaw (c : Camera) (dy dp : ℝ) :
    (c.orbit dy dp).yaw =
      rustRem (c.yaw + dy * c.rotation_speed) (2 * Real.pi) := rfl

theorem Camera.orbit_pitch (c : Camera) (dy dp : ℝ) :
    (c.orbit dy dp).pitch =
      rclamp (c.pitch + dp * c.rotation_speed)
        (-(Real.pi / 2) + 0.1) (Real.pi / 2 - 0.1) := rfl

theorem Camera.orbit_eye (c : Camera) (dy dp : ℝ) :
    (c.orbit dy dp).eye =
      c.center + sphereVec ((c.eye - c.center).magnitude)
        ((c.orbit dy dp).yaw) ((c.orbit dy dp).pitch) := rfl

/-- C10: move_forward, move_right, and move_up each translate eye and center
by the same vector, so the offset center minus eye is exactly preserved. -/
theorem move_preserves_view_offset (c : Camera) (amount : ℝ) :
    (c.move_forward amount).center - (c.move_forward amount).eye =
      c.center - c.eye ∧
    (c.move_right amount).center - (c.move_right amount).eye =
      c.center - c.eye ∧
    (c.move_up amount).center - (c.move_up amount).eye = c.center - c.eye := by
  refine ⟨?_, ?_, ?_⟩ <;>
    · simp only [Camera.move_forward, Camera.move_right, Camera.move_up]
      ext <;> simp

/-! ## Zoom claims -/

theorem Camera.zoom_dist_step (c : Camera) (d : ℝ)
    (h : 1 ≤ (c.eye - c.center).magnitude) :
    1 ≤ ((c.zoom d).eye - (c.zoom d).center).magnitude := by
  simp only [Camera.zoom]
  split_ifs with h1
  · exact le_of_lt h1
  · exact h

/-- C3: starting from eye-to-center distance at least the minimum distance
1.0, any finite sequence of zoom calls with arbitrary deltas leaves the
eye-to-center distance at least 1.0 — zoom never moves the eye inside the
fixed minimum distance of the center. -/
theorem zoom_min_distance_invariant (c : Camera) (ds : List ℝ)
    (h : 1 ≤ (c.eye - c.center).magnitude) :
    1 ≤ ((c.zoomSeq ds).eye - (c.zoomSeq ds).center).magnitude := by
  induction ds generalizing c with
  | nil => exact h
  | cons d ds ih =>
    have he : c.zoomSeq (d :: ds) = (c.zoom d).zoomSeq ds := rfl
    rw [he]
    exact ih _ (Camera.zoom_dist_step c d h)

theorem zoom_min_distance_invariant_witness :
    1 ≤ ((Camera.new ⟨0, 0, 3⟩ ⟨0, 0, 0⟩ ⟨0, 1, 0⟩).eye -
      (Camera.new ⟨0, 0, 3⟩ ⟨0, 0, 0⟩ ⟨0, 1, 0⟩).center).magnitude ∧
    1 ≤ (((Camera.new ⟨0, 0, 3⟩ ⟨0, 0, 0⟩ ⟨0, 1, 0⟩).zoomSeq [1, -4]).eye -
      ((Camera.new ⟨0, 0, 3⟩ ⟨0, 0, 0⟩ ⟨0, 1, 0⟩).zoomSeq [1, -4]).center).magnitude := by
  have h : 1 ≤ ((Camera.new ⟨0, 0, 3⟩ ⟨0, 0, 0⟩ ⟨0, 1, 0⟩).eye -
      (Camera.new ⟨0, 0, 3⟩ ⟨0, 0, 0⟩ ⟨0, 1, 0⟩).center).magnitude := by
    have e1 : (Camera.new ⟨0, 0, 3⟩ ⟨0, 0, 0⟩ ⟨0, 1, 0⟩).eye -
        (Camera.new ⟨0, 0, 3⟩ ⟨0, 0, 0⟩ ⟨0, 1, 0⟩).center = Vec3.mk 0 0 3 := by
      show Vec3.mk (0:ℝ) 0 3 - Vec3.mk 0 0 0 = Vec3.mk 0 0 3
      rw [Vec3.mk_sub_mk]
      norm_num
    rw [e1, Vec3.magnitude_mk]
    rw [show (0:ℝ) ^ 2 + 0 ^ 2 + 3 ^ 2 = 9 by norm_num]
    rw [sqrtEval (show (0:ℝ) ≤ 3 by norm_num) (show (3:ℝ) ^ 2 = 9 by norm_num)]
    norm_num
  exact ⟨h, zoom_min_distance_invariant _ [1, -4] h⟩

/-- C9: when the candidate new eye would land within the minimum distance
1.0 of the center, zoom rejects the move atomically — the returned camera is
the input camera, so eye, center, up, yaw, pitch, and has_changed are all
exactly as before. -/
theorem zoom_reject_atomic (c : Camera) (delta : ℝ)
    (h : ((c.eye + (delta * c.movement_speed) • Vec3.normalize (c.center - c.eye)) -
      c.center).magnitude ≤ 1) :
    c.zoom delta = c := by
  simp only [Camera.zoom]
  rw [if_neg (not_lt.mpr h)]

theorem zoom_reject_atomic_witness :
    (((Camera.new ⟨0, 0, 2⟩ ⟨0, 0, 0⟩ ⟨0, 1, 0⟩).eye +
      ((3:ℝ) * (Camera.new ⟨0, 0, 2⟩ ⟨0, 0, 0⟩ ⟨0, 1, 0⟩).movement_speed) •
        Vec3.normalize ((Camera.new ⟨0, 0, 2⟩ ⟨0, 0, 0⟩ ⟨0, 1, 0⟩).center -
          (Camera.new ⟨0, 0, 2⟩ ⟨0, 0, 0⟩ ⟨0, 1, 0⟩).eye)) -
      (Camera.new ⟨0, 0, 2⟩ ⟨0, 0, 0⟩ ⟨0, 1, 0⟩).center).magnitude ≤ 1 ∧
    (Camera.new ⟨0, 0, 2⟩ ⟨0, 0, 0⟩ ⟨0, 1, 0⟩).zoom 3 =
      Camera.new ⟨0, 0, 2⟩ ⟨0, 0, 0⟩ ⟨0, 1, 0⟩ := by
  have hm2 : (Vec3.mk (0:ℝ) 0 (-2)).magnitude = 2 := by
    rw [Vec3.magnitude_mk]
    rw [show (0:ℝ) ^ 2 + 0 ^ 2 + (-2) ^ 2 = 4 by norm_num]
    exact sqrtEval (by norm_num) (by norm_num)
  have hnorm : Vec3.normalize (Vec3.mk (0:ℝ) 0 (-2)) = Vec3.mk 0 0 (-1) := by
    unfold Vec3.normalize
    rw [hm2, Vec3.smul_mk]
    norm_num
  have h : (((Camera.new ⟨0, 0, 2⟩ ⟨0, 0, 0⟩ ⟨0, 1, 0⟩).eye +
      ((3:ℝ) * (Camera.new ⟨0, 0, 2⟩ ⟨0, 0, 0⟩ ⟨0, 1, 0⟩).movement_speed) •
        Vec3.normalize ((Camera.new ⟨0, 0, 2⟩ ⟨0, 0, 0⟩ ⟨0, 1, 0⟩).center -
          (Camera.new ⟨0, 0, 2⟩ ⟨0, 0, 0⟩ ⟨0, 1, 0⟩).eye)) -
      (Camera.new ⟨0, 0, 2⟩ ⟨0, 0, 0⟩ ⟨0, 1, 0⟩).center).magnitude ≤ 1 := by
    show ((Vec3.mk (0:ℝ) 0 2 + ((3:ℝ) * 0.5) •
      Vec3.normalize (Vec3.mk (0:ℝ) 0 0 - Vec3.mk 0 0 2)) -
      Vec3.mk 0 0 0).magnitude ≤ 1
    rw [show Vec3.mk (0:ℝ) 0 0 - Vec3.mk 0 0 2 = Vec3.mk 0 0 (-2) by
      rw [Vec3.mk_sub_mk]; norm_num]
    rw [hnorm, Vec3.smul_mk, Vec3.mk_add_mk, Vec3.mk_sub_mk]
    rw [show Vec3.mk ((0:ℝ) + 3 * 0.5 * 0 - 0) (0 + 3 * 0.5 * 0 - 0)
      (2 + 3 * 0.5 * (-1) - 0) = Vec3.mk 0 0 (1/2) by norm_num]
    rw [Vec3.magnitude_mk]
    rw [show (0:ℝ) ^ 2 + 0 ^ 2 + (1/2) ^ 2 = (1/2) ^ 2 by norm_num]
    rw [Real.sqrt_sq (by norm_num : (0:ℝ) ≤ 1/2)]
    norm_num
  exact ⟨h, zoom_reject_atomic _ 3 h⟩

/-! ## Orbit radius and pitch claims -/

/-- C8: a single orbit call with any yaw and pitch deltas preserves the
eye-to-center distance exactly in real arithmetic — the eye moves on the
sphere of the current radius around the center. -/
theorem orbit_preserves_radius (c : Camera) (dy dp : ℝ) (_h : c.eye ≠ c.center) :
    ((c.orbit dy dp).eye - (c.orbit dy dp).center).magnitude =
      (c.eye - c.center).magnitude := by
  rw [Camera.orbit_eye, Camera.orbit_center, Vec3.add_sub_cancel_left]
  exact sphereVec_magnitude _ _ _ (Vec3.magnitude_nonneg _)

theorem orbit_preserves_radius_witness :
    (Camera.new ⟨0, 0, 3⟩ ⟨0, 0, 0⟩ ⟨0, 1, 0⟩).eye ≠
      (Camera.new ⟨0, 0, 3⟩ ⟨0, 0, 0⟩ ⟨0, 1, 0⟩).center ∧
    (((Camera.new ⟨0, 0, 3⟩ ⟨0, 0, 0⟩ ⟨0, 1, 0⟩).orbit 1 1).eye -
      ((Camera.new ⟨0, 0, 3⟩ ⟨0, 0, 0⟩ ⟨0, 1, 0⟩).orbit 1 1).center).magnitude =
      ((Camera.new ⟨0, 0, 3⟩ ⟨0, 0, 0⟩ ⟨0, 1, 0⟩).eye -
        (Camera.new ⟨0, 0, 3⟩ ⟨0, 0, 0⟩ ⟨0, 1, 0⟩).center).magnitude := by
  have h : (Camera.new ⟨0, 0, 3⟩ ⟨0, 0, 0⟩ ⟨0, 1, 0⟩).eye ≠
      (Camera.new ⟨0, 0, 3⟩ ⟨0, 0, 0⟩ ⟨0, 1, 0⟩).center := by
    show Vec3.mk (0:ℝ) 0 3 ≠ Vec3.mk 0 0 0
    intro hq
    have hz := congrArg Vec3.z hq
    norm_num at hz
  exact ⟨h, orbit_preserves_radius _ 1 1 h⟩

/-- C5: if the pitch starts inside the clamped band
[-π/2 + 0.1, π/2 - 0.1], then after any sequence of orbit calls with
arbitrary deltas the pitch is still inside that band, hence strictly inside
(-π/2, π/2), a fixed 0.1-radian margin away from the gimbal poles. -/
theorem orbit_pitch_clamped (c : Camera) (ds : List (ℝ × ℝ))
    (h : -(Real.pi / 2) + 0.1 ≤ c.pitch ∧ c.pitch ≤ Real.pi / 2 - 0.1) :
    (-(Real.pi / 2) + 0.1 ≤ (c.orbitSeq ds).pitch ∧
      (c.orbitSeq ds).pitch ≤ Real.pi / 2 - 0.1) ∧
    (-(Real.pi / 2) < (c.orbitSeq ds).pitch ∧
      (c.orbitSeq ds).pitch < Real.pi / 2) := by
  have hlohi : -(Real.pi / 2) + (0.1:ℝ) ≤ Real.pi / 2 - 0.1 := by
    have := Real.pi_gt_three
    norm_num
    linarith
  have hmain : -(Real.pi / 2) + 0.1 ≤ (c.orbitSeq ds).pitch ∧
      (c.orbitSeq ds).pitch ≤ Real.pi / 2 - 0.1 := by
    induction ds generalizing c with
    | nil => exact h
    | cons p ps ih =>
      have he : c.orbitSeq (p :: ps) = (c.orbit p.1 p.2).orbitSeq ps := rfl
      rw [he]
      apply ih
      rw [Camera.orbit_pitch]
      exact rclamp_mem hlohi
  refine ⟨hmain, ?_, ?_⟩
  · have h01 : (0:ℝ) < 0.1 := by norm_num
    linarith [hmain.1]
  · have h01 : (0:ℝ) < 0.1 := by norm_num
    linarith [hmain.2]

theorem orbit_pitch_clamped_witness :
    (-(Real.pi / 2) + 0.1 ≤ (Camera.new ⟨0, 0, 3⟩ ⟨0, 0, 0⟩ ⟨0, 1, 0⟩).pitch ∧
      (Camera.new ⟨0, 0, 3⟩ ⟨0, 0, 0⟩ ⟨0, 1, 0⟩).pitch ≤ Real.pi / 2 - 0.1) ∧
    (-(Real.pi / 2) <
      ((Camera.new ⟨0, 0, 3⟩ ⟨0, 0, 0⟩ ⟨0, 1, 0⟩).orbitSeq
        [(1, 500), (2, -500)]).pitch ∧
      ((Camera.new ⟨0, 0, 3⟩ ⟨0, 0, 0⟩ ⟨0, 1, 0⟩).orbitSeq
        [(1, 500), (2, -500)]).pitch < Real.pi / 2) := by
  have h : -(Real.pi / 2) + 0.1 ≤ (Camera.new ⟨0, 0, 3⟩ ⟨0, 0, 0⟩ ⟨0, 1, 0⟩).pitch ∧
      (Camera.new ⟨0, 0, 3⟩ ⟨0, 0, 0⟩ ⟨0, 1, 0⟩).pitch ≤ Real.pi / 2 - 0.1 := by
    constructor
    · show -(Real.pi / 2) + 0.1 ≤ (0:ℝ)
      have := Real.pi_gt_three
      norm_num
      linarith
    · show (0:ℝ) ≤ Real.pi / 2 - 0.1
      have := Real.pi_gt_three
      norm_num
      linarith
  exact ⟨h, (orbit_pitch_clamped _ [(1, 500), (2, -500)] h).2⟩

/-! ## Orbit yaw-wrap claim -/

theorem pitch_lo_le_hi : -(Real.pi / 2) + (0.1:ℝ) ≤ Real.pi / 2 - 0.1 := by
  have := Real.pi_gt_three
  norm_num
  linarith

theorem sphereVec_period (r p θ : ℝ) (k : ℤ) :
    sphereVec r (θ + (k:ℝ) * (2 * Real.pi)) p = sphereVec r θ p := by
  unfold sphereVec
  rw [Real.cos_add_int_mul_two_pi, Real.sin_add_int_mul_two_pi]

theorem Camera.orbit_radius_eq (c : Camera) (dy dp : ℝ) :
    ((c.orbit dy dp).eye - (c.orbit dy dp).center).magnitude =
      (c.eye - c.center).magnitude := by
  rw [Camera.orbit_eye, Camera.orbit_center, Vec3.add_sub_cancel_left]
  exact sphereVec_magnitude _ _ _ (Vec3.magnitude_nonneg _)

theorem orbitSeqY_eye (ds : List ℝ) :
    ∀ (c : Camera) (d : ℝ),
      ∃ k : ℤ, (c.orbitSeq ((d :: ds).map (fun t => (t, (0:ℝ))))).eye =
        c.center + sphereVec ((c.eye - c.center).magnitude)
          (c.yaw + (d + ds.sum) * c.rotation_speed + (k:ℝ) * (2 * Real.pi))
          (rclamp c.pitch (-(Real.pi / 2) + 0.1) (Real.pi / 2 - 0.1)) := by
  induction ds with
  | nil =>
    intro c d
    obtain ⟨k, hk⟩ :=
      rustRem_eq_add_int_mul (c.yaw + d * c.rotation_speed) (2 * Real.pi)
    refine ⟨k, ?_⟩
    have he : c.orbitSeq ([d].map (fun t => (t, (0:ℝ)))) = c.orbit d 0 := rfl
    rw [he, Camera.orbit_eye, Camera.orbit_yaw, Camera.orbit_pitch, hk]
    simp
  | cons e ds ih =>
    intro c d
    obtain ⟨k0, hk0⟩ :=
      rustRem_eq_add_int_mul (c.yaw + d * c.rotation_speed) (2 * Real.pi)
    obtain ⟨k, hk⟩ := ih (c.orbit d 0) e
    refine ⟨k0 + k, ?_⟩
    have he : c.orbitSeq ((d :: e :: ds).map (fun t => (t, (0:ℝ)))) =
        (c.orbit d 0).orbitSeq ((e :: ds).map (fun t => (t, (0:ℝ)))) := rfl
    rw [he, hk]
    have hrad : (((c.orbit d 0).eye - (c.orbit d 0).center)).magnitude =
        (c.eye - c.center).magnitude := Camera.orbit_radius_eq c d 0
    have hangle : (c.orbit d 0).yaw + (e + ds.sum) * (c.orbit d 0).rotation_speed +
        (k:ℝ) * (2 * Real.pi) =
        c.yaw + (d + (e :: ds).sum) * c.rotation_speed +
          ((k0 + k : ℤ):ℝ) * (2 * Real.pi) := by
      rw [Camera.orbit_yaw, Camera.orbit_speed, hk0, List.sum_cons]
      push_cast
      ring
    have hpitch : rclamp ((c.orbit d 0).pitch)
        (-(Real.pi / 2) + 0.1) (Real.pi / 2 - 0.1) =
        rclamp c.pitch (-(Real.pi / 2) + 0.1) (Real.pi / 2 - 0.1) := by
      rw [Camera.orbit_pitch]
      rw [show c.pitch + 0 * c.rotation_speed = c.pitch by ring]
      exact rclamp_idem pitch_lo_le_hi
    rw [hrad, hangle, hpitch, Camera.orbit_center]

/-- C4: a sequence of yaw-only orbit calls whose accumulated (scaled) yaw
passes one full turn moves the eye to the same position as one orbit call
whose yaw delta is the sum of the deltas with the rotation-speed scaling
applied, reduced modulo one full turn, and unscaled again. -/
theorem orbit_yaw_wrap (c : Camera) (ds : List ℝ) (h1 : ds ≠ [])
    (h2 : c.rotation_speed ≠ 0)
    (h3 : 2 * Real.pi < |ds.sum * c.rotation_speed|) :
    (c.orbitSeq (ds.map (fun t => (t, (0:ℝ))))).eye =
      (c.orbit (rustRem (ds.sum * c.rotation_speed) (2 * Real.pi) /
        c.rotation_speed) 0).eye := by
  cases ds with
  | nil => exact absurd rfl h1
  | cons d ds =>
    obtain ⟨k, hk⟩ := orbitSeqY_eye ds c d
    obtain ⟨k1, hk1⟩ :=
      rustRem_eq_add_int_mul ((d :: ds).sum * c.rotation_speed) (2 * Real.pi)
    rw [hk, Camera.orbit_eye, Camera.orbit_yaw, Camera.orbit_pitch]
    rw [div_mul_cancel₀ _ h2]
    rw [show c.pitch + 0 * c.rotation_speed = c.pitch by ring]
    rw [hk1]
    obtain ⟨k2, hk2⟩ := rustRem_eq_add_int_mul
      (c.yaw + ((d :: ds).sum * c.rotation_speed + (k1:ℝ) * (2 * Real.pi)))
      (2 * Real.pi)
    rw [hk2]
    have hL : c.yaw + (d + ds.sum) * c.rotation_speed + (k:ℝ) * (2 * Real.pi) =
        (c.yaw + (d :: ds).sum * c.rotation_speed) + (k:ℝ) * (2 * Real.pi) := by
      rw [List.sum_cons]
    have hR : c.yaw + ((d :: ds).sum * c.rotation_speed +
        (k1:ℝ) * (2 * Real.pi)) + (k2:ℝ) * (2 * Real.pi) =
        (c.yaw + (d :: ds).sum * c.rotation_speed) +
          ((k1 + k2 : ℤ):ℝ) * (2 * Real.pi) := by
      push_cast
      ring
    rw [hL, hR]
    simp only [sphereVec_period]

theorem orbit_yaw_wrap_witness :
    ([(300:ℝ), 300] ≠ []) ∧
    (Camera.new ⟨0, 0, 3⟩ ⟨0, 0, 0⟩ ⟨0, 1, 0⟩).rotation_speed ≠ 0 ∧
    2 * Real.pi < |List.sum [(300:ℝ), 300] *
      (Camera.new ⟨0, 0, 3⟩ ⟨0, 0, 0⟩ ⟨0, 1, 0⟩).rotation_speed| ∧
    ((Camera.new ⟨0, 0, 3⟩ ⟨0, 0, 0⟩ ⟨0, 1, 0⟩).orbitSeq
      ([(300:ℝ), 300].map (fun t => (t, (0:ℝ))))).eye =
      ((Camera.new ⟨0, 0, 3⟩ ⟨0, 0, 0⟩ ⟨0, 1, 0⟩).orbit
        (rustRem (List.sum [(300:ℝ), 300] *
          (Camera.new ⟨0, 0, 3⟩ ⟨0, 0, 0⟩ ⟨0, 1, 0⟩).rotation_speed)
          (2 * Real.pi) /
          (Camera.new ⟨0, 0, 3⟩ ⟨0, 0, 0⟩ ⟨0, 1, 0⟩).rotation_speed) 0).eye := by
  have h1 : [(300:ℝ), 300] ≠ [] := by simp
  have h2 : (Camera.new ⟨0, 0, 3⟩ ⟨0, 0, 0⟩ ⟨0, 1, 0⟩).rotation_speed ≠ 0 := by
    show (0.03:ℝ) ≠ 0
    norm_num
  have h3 : 2 * Real.pi < |List.sum [(300:ℝ), 300] *
      (Camera.new ⟨0, 0, 3⟩ ⟨0, 0, 0⟩ ⟨0, 1, 0⟩).rotation_speed| := by
    show 2 * Real.pi < |List.sum [(300:ℝ), 300] * (0.03:ℝ)|
    rw [show List.sum [(300:ℝ), 300] = 600 by norm_num]
    rw [show (600:ℝ) * 0.03 = 18 by norm_num]
    rw [abs_of_pos (by norm_num : (0:ℝ) < 18)]
    linarith [Real.pi_lt_d2]
  exact ⟨h1, h2, h3, orbit_yaw_wrap _ _ h1 h2 h3⟩
